import Mathlib

/-!
# Lookup tables of `translator_labs` (`src/main/main.cpp`)

A shallow embedding of the two table classes of the translator front end and the
properties of their lookup and insertion operations.

Modelling conventions.

* `std::string` is a Lean `String`; a `char` is a Lean `Char`.
* `std::map<string, V>` is a list of `(key, value)` entries kept in the order in which a
  range-`for` visits the map (ascending keys). `mapFind`, `mapInsert` and `mapSetMeta` stand
  for `map::find`, `map::insert` and the assignment `data.at(key).second = ...`.
* `int` values are Lean `Int`s. The only arithmetic of the source on them is `counter++`;
  its result leaves the `int` range only after `2^31 - 1` distinct keys were added (signed
  overflow, for which C++ defines no behaviour), so the increment is modelled exactly on
  every table with fewer entries than that (`counter_build_le`). The extraction
  `file >> num`, where the range matters on small inputs, is modelled with the range check
  of the stream library.
* `int num` of the read loop has no initialiser; the value it holds when no extraction
  writes it is a parameter of the model.
* A pointer or `shared_ptr` result is an `Option` (`none` is `nullptr`) holding the value it
  points to.
-/

namespace TranslatorLabs

/-! ## `std::map<string, V>` -/

/-- The comparison `a < b` of `std::string`: lexicographic on the characters. -/
def strLess : List Char → List Char → Bool
  | _, [] => false
  | [], _ :: _ => true
  | a :: as, b :: bs =>
    if a.toNat < b.toNat then true
    else if b.toNat < a.toNat then false
    else strLess as bs

/-- `data.find(elem)`: the value stored under `elem`; `none` stands for `data.end()`. -/
def mapFind {V : Type} (elem : String) : List (String × V) → Option V
  | [] => none
  | (k, v) :: rest => if k = elem then some v else mapFind elem rest

/-- Placement of a new entry at its position in ascending key order. -/
def mapPlace {V : Type} (key : String) (v : V) : List (String × V) → List (String × V)
  | [] => [(key, v)]
  | (k, w) :: rest =>
    if strLess key.data k.data then (key, v) :: (k, w) :: rest
    else (k, w) :: mapPlace key v rest

/-- `data.insert(pair)`: a map that already holds the key is left as it is, otherwise the
pair becomes a new entry. -/
def mapInsert {V : Type} (key : String) (v : V) (data : List (String × V)) :
    List (String × V) :=
  match mapFind key data with
  | some _ => data
  | none => mapPlace key v data

/-- `data.at(key).second = metadata`: the second component of the value stored under `key`
is replaced. (`at` throws for a missing key; `add` calls it only after `find` found the
key, and here a missing key leaves the map as it is.) -/
def mapSetMeta {T : Type} (key : String) (metadata : T) :
    List (String × (Int × T)) → List (String × (Int × T))
  | [] => []
  | (k, v) :: rest =>
    if k = key then (k, (v.1, metadata)) :: rest
    else (k, v) :: mapSetMeta key metadata rest

/-! ## `VariableTable<T>` -/

/-- The enumeration `Type` of the source. -/
inductive VarType where
  | undefined
  | integer
  deriving DecidableEq, Repr

/-- The record `MetaData` with its default member initialisers. -/
structure MetaData where
  type : VarType := VarType.undefined
  value : Int := 0
  deriving DecidableEq, Repr

/-- The class `VariableTable<T>`: the private `counter` and the public `data`. -/
structure VariableTable (T : Type) where
  counter : Int := 0
  data : List (String × (Int × T)) := []

/-- What a call of a non-void function yields: the returned value, or `undefined` when
control reaches the closing brace of the function without a `return`. -/
inductive Outcome (α : Type) where
  | returned (a : α)
  | undefined
  deriving DecidableEq, Repr

namespace VariableTable

variable {T : Type}

/-- A freshly constructed table, `VariableTable<T>()`. -/
def empty : VariableTable T := { counter := 0, data := [] }

/-- `int find(const string& elem)`. -/
def find (t : VariableTable T) (elem : String) : Int :=
  match mapFind elem t.data with
  | none => -1
  | some inita => inita.1

/-- The loop of `findMetaByIndex`: the metadata of the first visited entry whose stored
index is `index`, `none` (the initial `nullptr`) when the loop ends without a match. -/
def scanMeta (index : Int) : List (String × (Int × T)) → Option T
  | [] => none
  | (_, value) :: rest => if value.1 = index then some value.2 else scanMeta index rest

/-- `T* findMetaByIndex(int index)`. -/
def findMetaByIndex (t : VariableTable T) (index : Int) : Option T :=
  if index ≥ t.counter ∨ index < 0 then none
  else scanMeta index t.data

/-- The loop of `findByIndex`: returns the first visited entry whose stored index is
`index`; after the loop the function body ends without a `return`. -/
def scanEntry (index : Int) : List (String × (Int × T)) → Outcome (Option (String × T))
  | [] => Outcome.undefined
  | (key, value) :: rest =>
    if value.1 = index then Outcome.returned (some (key, value.2))
    else scanEntry index rest

/-- `shared_ptr<pair<string, T&>> findByIndex(int index)`. -/
def findByIndex (t : VariableTable T) (index : Int) : Outcome (Option (String × T)) :=
  if index ≥ t.counter ∨ index < 0 then Outcome.returned none
  else scanEntry index t.data

/-- `int add(string key, T metadata)`: the returned index and the table after the call. -/
def add (t : VariableTable T) (key : String) (metadata : T) : Int × VariableTable T :=
  let pos := t.find key
  if pos ≥ 0 then
    (pos, { t with data := mapSetMeta key metadata t.data })
  else
    (t.counter,
      { counter := t.counter + 1, data := mapInsert key (t.counter, metadata) t.data })

/-- The table after a sequence of `add` calls, made in list order. -/
def addAll (t : VariableTable T) : List (String × T) → VariableTable T
  | [] => t
  | (key, metadata) :: rest => addAll (t.add key metadata).2 rest

/-- The table built from the empty table by the calls of `ops`. -/
def build (ops : List (String × T)) : VariableTable T := addAll empty ops

/-- The keys of a map, in visiting order. -/
def keys (data : List (String × (Int × T))) : List String := data.map Prod.fst

/-- The stored indices of a map, in visiting order. -/
def indices (data : List (String × (Int × T))) : List Int := data.map (fun e => e.2.1)

/-- The representation invariant: keys are unique, `counter` counts the entries, and the
stored indices are pairwise different and are exactly the integers of `[0, counter)`. -/
structure Inv (t : VariableTable T) : Prop where
  keys_nodup : (keys t.data).Nodup
  size : t.counter = (t.data.length : Int)
  idx_nodup : (indices t.data).Nodup
  idx_iff : ∀ i : Int, i ∈ indices t.data ↔ 0 ≤ i ∧ i < t.counter

/-- The metadata passed by the last call of `ops` made for `key`. -/
def lastMeta (key : String) : List (String × T) → Option T
  | [] => none
  | (k, m) :: rest =>
    match lastMeta key rest with
    | some m' => some m'
    | none => if k = key then some m else none

end VariableTable

/-! ## `std::ifstream` and the formatted extractions `file >> num >> str` -/

/-- `isspace` of the classic locale: space, `\t`, `\n`, `\v`, `\f`, `\r`. -/
def isspace (c : Char) : Bool := c.toNat == 32 || (9 ≤ c.toNat && c.toNat ≤ 13)

/-- A decimal digit. -/
def isdigit (c : Char) : Bool := 48 ≤ c.toNat && c.toNat ≤ 57

/-- Largest value of `int`. -/
def INT_MAX : Int := 2147483647

/-- Smallest value of `int`. -/
def INT_MIN : Int := -2147483648

/-- An open input stream: the characters not yet extracted and the state flags `eofbit`
and `failbit`. -/
structure IStream where
  rest : List Char
  eofbit : Bool := false
  failbit : Bool := false
  deriving DecidableEq, Repr

namespace IStream

/-- `good()`: no state flag is set. -/
def good (s : IStream) : Bool := !s.eofbit && !s.failbit

/-- The sentry that every formatted extraction constructs first. On a stream that is not
`good()` it sets `failbit`. Otherwise it skips leading whitespace, and sets `eofbit` and
`failbit` when the end of the stream is reached that way. The flag tells whether the
extraction may proceed. -/
def sentry (s : IStream) : IStream × Bool :=
  if s.good then
    match s.rest.dropWhile isspace with
    | [] => ({ rest := [], eofbit := true, failbit := true }, false)
    | c :: cs => ({ s with rest := c :: cs }, true)
  else
    ({ s with failbit := true }, false)

/-- The number written by a run of decimal digits. -/
def digitsValue (ds : List Char) : Nat :=
  ds.foldl (fun acc d => 10 * acc + (d.toNat - 48)) 0

/-- `file >> num` for `int num`: the stream and the value of `num` after the extraction.
When the sentry fails `num` keeps its value. Otherwise an optional sign and the following
digits are consumed (`eofbit` is set when they end at the end of the stream); without a
digit `num` becomes 0 and `failbit` is set; a number outside the range of `int` sets
`failbit` and stores the nearest bound. -/
def readInt (s : IStream) (num : Int) : IStream × Int :=
  match s.sentry with
  | (s1, false) => (s1, num)
  | (s1, true) =>
    let signed : Bool × List Char :=
      match s1.rest with
      | [] => (false, [])
      | c :: cs =>
        if c = '-' then (true, cs)
        else if c = '+' then (false, cs)
        else (false, c :: cs)
    let ds := signed.2.takeWhile isdigit
    let after := signed.2.dropWhile isdigit
    if ds.isEmpty then
      ({ rest := after, eofbit := after.isEmpty, failbit := true }, 0)
    else
      let v : Int := if signed.1 then -(digitsValue ds : Int) else (digitsValue ds : Int)
      if v > INT_MAX then
        ({ rest := after, eofbit := after.isEmpty, failbit := true }, INT_MAX)
      else if v < INT_MIN then
        ({ rest := after, eofbit := after.isEmpty, failbit := true }, INT_MIN)
      else
        ({ rest := after, eofbit := after.isEmpty, failbit := false }, v)

/-- `file >> str` for `string str`: when the sentry fails `str` keeps its value, otherwise
`str` becomes the characters up to the next whitespace or the end of the stream
(`eofbit` is set when the end is reached). -/
def readString (s : IStream) (str : String) : IStream × String :=
  match s.sentry with
  | (s1, false) => (s1, str)
  | (s1, true) =>
    let after := s1.rest.dropWhile (fun c => !isspace c)
    ({ rest := after, eofbit := after.isEmpty, failbit := false },
      String.mk (s1.rest.takeWhile (fun c => !isspace c)))

end IStream

/-! ## `ConstTable` -/

/-- The class `ConstTable`. -/
structure ConstTable where
  data : List (String × Int) := []
  deriving DecidableEq, Repr

/-- How a call of `readFromFile` ends: the message of the `runtime_error` it throws, if
any, and the table after the call. -/
structure ReadResult where
  thrown : Option String
  table : ConstTable
  deriving DecidableEq, Repr

namespace ConstTable

/-- `int find(const string& elem)`. -/
def find (t : ConstTable) (elem : String) : Int :=
  match mapFind elem t.data with
  | none => -1
  | some second => second

/-- The loop `while (!file.eof()) { int num; string str; file >> num >> str;
data.insert(pair(str, num)); }`. `num` is declared without an initialiser: `uninit i` is
the indeterminate value it holds in iteration `i`. The first argument bounds the number of
iterations; `none` means that the loop is still running after that many. -/
def readLoop (uninit : Nat → Int) :
    Nat → Nat → IStream → List (String × Int) → Option (List (String × Int))
  | 0, _, file, data => if file.eofbit then some data else none
  | fuel + 1, i, file, data =>
    if file.eofbit then some data
    else
      let r1 := file.readInt (uninit i)
      let r2 := r1.1.readString ""
      readLoop uninit fuel (i + 1) r2.1 (mapInsert r2.2 r1.2 data)

/-- `void readFromFile(string filePath)`. `fs filePath` is the content of the file when it
can be opened. The result is `none` when the read loop is still running after `fuel`
iterations. -/
def readFromFile (fs : String → Option String) (uninit : Nat → Int) (fuel : Nat)
    (t : ConstTable) (filePath : String) : Option ReadResult :=
  match fs filePath with
  | none => some { thrown := some ("Cannot open file " ++ filePath), table := t }
  | some content =>
    match readLoop uninit fuel 0 { rest := content.data } t.data with
    | none => none
    | some data => some { thrown := none, table := { data := data } }

end ConstTable

/-! ## The bulk-load format -/

/-- One `<integer> <string>` record as it is written in a source text: the whitespace in
front of it, the sign and the digits of the integer, the whitespace between the integer and
the string, and the string. -/
structure Record where
  lead : List Char
  sign : List Char
  digits : List Char
  sep : List Char
  key : List Char
  deriving DecidableEq, Repr

namespace Record

/-- The characters of the record. -/
def text (r : Record) : List Char := r.lead ++ (r.sign ++ (r.digits ++ (r.sep ++ r.key)))

/-- The integer that the record writes. -/
def value (r : Record) : Int :=
  if r.sign = ['-'] then -(IStream.digitsValue r.digits : Int)
  else (IStream.digitsValue r.digits : Int)

/-- A well-formed record: an optional sign and at least one digit, writing a value of
`int`; then whitespace; then a non-empty string without whitespace. What stands in front of
the record is whitespace. -/
def wellFormed (r : Record) : Bool :=
  r.lead.all isspace &&
  (r.sign == [] || r.sign == ['+'] || r.sign == ['-']) &&
  (!r.digits.isEmpty && r.digits.all isdigit) &&
  (!r.sep.isEmpty && r.sep.all isspace) &&
  (!r.key.isEmpty && r.key.all (fun c => !isspace c)) &&
  (decide (INT_MIN ≤ r.value) && decide (r.value ≤ INT_MAX))

end Record

/-- The source text made of the records `rs` followed by the characters `trail`. -/
def sourceText : List Record → List Char → List Char
  | [], trail => trail
  | r :: rs, trail => r.text ++ sourceText rs trail

/-- A well-formed source: well-formed records, each one after the first separated from its
predecessor by whitespace, and nothing but whitespace after the last one. -/
def wellFormedSource (rs : List Record) (trail : List Char) : Bool :=
  rs.all Record.wellFormed && rs.tail.all (fun r => !r.lead.isEmpty) && trail.all isspace

/-- The map after `data.insert` was called for each record in turn. -/
def insertAll (data : List (String × Int)) : List Record → List (String × Int)
  | [] => data
  | r :: rs => insertAll (mapInsert (String.mk r.key) r.value data) rs

/-- The integer of the first record of `rs` whose string is `k`. -/
def firstValue (k : String) : List Record → Option Int
  | [] => none
  | r :: rs => if String.mk r.key = k then some r.value else firstValue k rs

/-! ## Inputs of the tests and scenarios -/

/-- The call `add("sum")` of `variableTablesTests`. -/
def sumOnly : List (String × MetaData) := [("sum", {})]

/-- The calls `add("sum")`, `add("mult")` of `variableTablesTests`. -/
def sumMult : List (String × MetaData) := [("sum", {}), ("mult", {})]

/-- A further call `add("sum", m)` with metadata other than the default. -/
def sumAgain : List (String × MetaData) := [("sum", { type := VarType.integer, value := 2 })]

/-- Metadata other than the default `MetaData()`. -/
def otherMeta : MetaData := { type := VarType.integer, value := 7 }

/-- A keyword file with three records and a final newline. -/
def keywordsText : String := "0 int\n1 main\n2 if\n"

/-- The records of `keywordsText`. -/
def keywordsRecords : List Record :=
  [ { lead := [], sign := [], digits := ['0'], sep := [' '], key := "int".data },
    { lead := ['\n'], sign := [], digits := ['1'], sep := [' '], key := "main".data },
    { lead := ['\n'], sign := [], digits := ['2'], sep := [' '], key := "if".data } ]

/-- A file system in which every path opens a file with the given content. -/
def fileWith (content : String) : String → Option String := fun _ => some content

/-- A file system in which no path can be opened. -/
def noFile : String → Option String := fun _ => none

/-- A source in which the key `a` occurs in two records. -/
def repeatedKeyText : String := "1 a 2 a"

/-- The records of `repeatedKeyText`. -/
def repeatedKeyRecords : List Record :=
  [ { lead := [], sign := [], digits := ['1'], sep := [' '], key := ['a'] },
    { lead := [' '], sign := [], digits := ['2'], sep := [' '], key := ['a'] } ]

/-- A source whose second record has the first field `-`, which is no integer, and no
string. -/
def brokenEndText : String := "1 a\n-"

/-- A source whose second record has the non-numeric first field `abc`. -/
def nonNumericText : String := "1 a\nabc def\n"

/-! ## Facts about the map operations -/

section MapFacts

variable {V T : Type}

theorem mapFind_eq_none_iff (k : String) (data : List (String × V)) :
    mapFind k data = none ↔ k ∉ data.map Prod.fst := by
  induction data with
  | nil => simp [mapFind]
  | cons e rest ih =>
    obtain ⟨k', v⟩ := e
    by_cases h : k' = k
    · simp [mapFind, h]
    · have h' : ¬ k = k' := fun h'' => h h''.symm
      simp [mapFind, h, h', ih]

theorem mapFind_some_mem {k : String} {v : V} {data : List (String × V)}
    (h : mapFind k data = some v) : (k, v) ∈ data := by
  induction data with
  | nil => simp [mapFind] at h
  | cons e rest ih =>
    obtain ⟨k', w⟩ := e
    by_cases hk : k' = k
    · simp [mapFind, hk] at h
      simp [hk, h]
    · simp [mapFind, hk] at h
      exact List.mem_cons_of_mem _ (ih h)

theorem mem_mapFind {k : String} {v : V} {data : List (String × V)}
    (hnd : (data.map Prod.fst).Nodup) (h : (k, v) ∈ data) : mapFind k data = some v := by
  induction data with
  | nil => simp at h
  | cons e rest ih =>
    obtain ⟨k', w⟩ := e
    simp only [List.map_cons, List.nodup_cons] at hnd
    rcases List.mem_cons.mp h with h1 | h1
    · injection h1 with h2 h3
      subst h2; subst h3
      simp [mapFind]
    · have hk : k' ≠ k := by
        intro hk
        apply hnd.1
        rw [hk]
        exact List.mem_map_of_mem Prod.fst h1
      simp [mapFind, hk, ih hnd.2 h1]

theorem mapPlace_perm (k : String) (v : V) (data : List (String × V)) :
    (mapPlace k v data).Perm ((k, v) :: data) := by
  induction data with
  | nil => simp [mapPlace]
  | cons e rest ih =>
    obtain ⟨k', w⟩ := e
    unfold mapPlace
    split
    · exact List.Perm.refl _
    · exact ((List.Perm.cons _ ih).trans (List.Perm.swap _ _ _))

theorem mapFind_mapPlace {k : String} (v : V) {data : List (String × V)}
    (hk : mapFind k data = none) (k' : String) :
    mapFind k' (mapPlace k v data) = if k = k' then some v else mapFind k' data := by
  induction data with
  | nil => simp [mapPlace, mapFind]
  | cons e rest ih =>
    obtain ⟨k₁, w⟩ := e
    have h1 : k₁ ≠ k := by
      intro h; simp [mapFind, h] at hk
    have h2 : mapFind k rest = none := by
      simpa [mapFind, h1] using hk
    unfold mapPlace
    split
    · simp [mapFind]
    · by_cases h3 : k₁ = k'
      · have h4 : k ≠ k' := fun h => h1 (h3.trans h.symm)
        simp [mapFind, h3, h4]
      · simp [mapFind, h3, ih h2]

theorem mapSetMeta_keys (k : String) (m : T) (data : List (String × (Int × T))) :
    (mapSetMeta k m data).map Prod.fst = data.map Prod.fst := by
  induction data with
  | nil => rfl
  | cons e rest ih =>
    obtain ⟨k', w⟩ := e
    unfold mapSetMeta
    split <;> simp [ih]

theorem mapSetMeta_indices (k : String) (m : T) (data : List (String × (Int × T))) :
    (mapSetMeta k m data).map (fun e => e.2.1) = data.map (fun e => e.2.1) := by
  induction data with
  | nil => rfl
  | cons e rest ih =>
    obtain ⟨k', w⟩ := e
    unfold mapSetMeta
    split <;> simp [ih]

theorem mapFind_mapSetMeta (k : String) (m : T) (data : List (String × (Int × T)))
    (k' : String) :
    mapFind k' (mapSetMeta k m data) =
      if k = k' then (mapFind k data).map (fun v => (v.1, m)) else mapFind k' data := by
  induction data with
  | nil => simp [mapSetMeta, mapFind]
  | cons e rest ih =>
    obtain ⟨k₁, w⟩ := e
    unfold mapSetMeta
    by_cases h1 : k₁ = k
    · subst h1
      by_cases h2 : k₁ = k' <;> simp [mapFind, h2]
    · by_cases h2 : k₁ = k'
      · subst h2
        have h3 : k ≠ k₁ := fun h => h1 h.symm
        simp [mapFind, h1, h3]
      · simp [mapFind, h1, h2, ih]

end MapFacts

/-! ## The representation invariant of `VariableTable` -/

namespace VariableTable

variable {T : Type}

theorem find_of_none {t : VariableTable T} {k : String} (h : mapFind k t.data = none) :
    t.find k = -1 := by
  simp [find, h]

theorem find_of_some {t : VariableTable T} {k : String} {v : Int × T}
    (h : mapFind k t.data = some v) : t.find k = v.1 := by
  simp [find, h]

theorem mem_indices_of_mapFind {data : List (String × (Int × T))} {k : String} {v : Int × T}
    (h : mapFind k data = some v) : v.1 ∈ indices data :=
  List.mem_map.mpr ⟨(k, v), mapFind_some_mem h, rfl⟩

theorem add_absent {t : VariableTable T} {k : String} (m : T)
    (h : mapFind k t.data = none) :
    t.add k m =
      (t.counter, { counter := t.counter + 1, data := mapPlace k (t.counter, m) t.data }) := by
  simp [add, find_of_none h, mapInsert, h]

theorem add_present {t : VariableTable T} (hinv : Inv t) {k : String} {v : Int × T} (m : T)
    (h : mapFind k t.data = some v) :
    t.add k m = (v.1, { t with data := mapSetMeta k m t.data }) := by
  have hpos : 0 ≤ v.1 := ((hinv.idx_iff v.1).mp (mem_indices_of_mapFind h)).1
  simp [add, find_of_some h, hpos]

theorem Inv.empty : Inv (empty : VariableTable T) where
  keys_nodup := by simp [VariableTable.empty, keys]
  size := by simp [VariableTable.empty]
  idx_nodup := by simp [VariableTable.empty, indices]
  idx_iff := by
    intro i
    simp only [VariableTable.empty, indices, List.map_nil, List.not_mem_nil, false_iff]
    omega

theorem Inv.add {t : VariableTable T} (hinv : Inv t) (k : String) (m : T) :
    Inv (t.add k m).2 := by
  cases h : mapFind k t.data with
  | none =>
    rw [add_absent m h]
    have hperm := mapPlace_perm k (t.counter, m) t.data
    have hk : k ∉ keys t.data := (mapFind_eq_none_iff k t.data).mp h
    have hc : t.counter ∉ indices t.data := by
      intro hmem
      have := ((hinv.idx_iff _).mp hmem).2
      omega
    refine ⟨?_, ?_, ?_, ?_⟩
    · have hp : (keys (mapPlace k (t.counter, m) t.data)).Perm (k :: keys t.data) :=
        hperm.map Prod.fst
      exact hp.nodup_iff.mpr (List.nodup_cons.mpr ⟨hk, hinv.keys_nodup⟩)
    · have hl := hperm.length_eq
      simp only [List.length_cons] at hl
      show t.counter + 1 = ((mapPlace k (t.counter, m) t.data).length : Int)
      rw [hl, hinv.size]
      push_cast
      rfl
    · have hp : (indices (mapPlace k (t.counter, m) t.data)).Perm
          (t.counter :: indices t.data) := by
        have hq := hperm.map (fun e : String × (Int × T) => e.2.1)
        simpa [indices] using hq
      exact hp.nodup_iff.mpr (List.nodup_cons.mpr ⟨hc, hinv.idx_nodup⟩)
    · intro i
      have hp : (indices (mapPlace k (t.counter, m) t.data)).Perm
          (t.counter :: indices t.data) := by
        have hq := hperm.map (fun e : String × (Int × T) => e.2.1)
        simpa [indices] using hq
      rw [hp.mem_iff, List.mem_cons, hinv.idx_iff i]
      have h0 : 0 ≤ t.counter := by rw [hinv.size]; exact Int.ofNat_nonneg _
      constructor
      · rintro (h1 | h1)
        · subst h1; exact ⟨h0, by simp⟩
        · exact ⟨h1.1, by simp only []; omega⟩
      · intro h1
        simp only [] at h1
        by_cases h2 : i = t.counter
        · exact Or.inl h2
        · exact Or.inr ⟨h1.1, by omega⟩
  | some v =>
    rw [add_present hinv m h]
    refine ⟨?_, ?_, ?_, ?_⟩
    · simpa [keys, mapSetMeta_keys] using hinv.keys_nodup
    · have hl : (mapSetMeta k m t.data).length = t.data.length := by
        have := congrArg List.length (mapSetMeta_keys k m t.data)
        simpa using this
      simp only [hl, hinv.size]
    · simpa [indices, mapSetMeta_indices] using hinv.idx_nodup
    · intro i
      simpa [indices, mapSetMeta_indices] using hinv.idx_iff i

theorem Inv.addAll {t : VariableTable T} (hinv : Inv t) (ops : List (String × T)) :
    Inv (t.addAll ops) := by
  induction ops generalizing t with
  | nil => exact hinv
  | cons op rest ih =>
    obtain ⟨k, m⟩ := op
    exact ih (hinv.add k m)

theorem Inv.build (ops : List (String × T)) : Inv (build ops) :=
  Inv.empty.addAll ops

theorem addAll_append (t : VariableTable T) (ops₁ ops₂ : List (String × T)) :
    t.addAll (ops₁ ++ ops₂) = (t.addAll ops₁).addAll ops₂ := by
  induction ops₁ generalizing t with
  | nil => rfl
  | cons op rest ih =>
    obtain ⟨k, m⟩ := op
    simp only [List.cons_append, VariableTable.addAll]
    exact ih _

theorem build_snoc (ops : List (String × T)) (k : String) (m : T) :
    build (ops ++ [(k, m)]) = ((build ops).add k m).2 := by
  simp [build, addAll_append, VariableTable.addAll]

end VariableTable

/-! ## Effect of one `add` and of a sequence of `add` calls -/

namespace VariableTable

variable {T : Type}

theorem distinct_snoc (l : List String) (a : String) :
    (l ++ [a]).dedup.length = if a ∈ l then l.dedup.length else l.dedup.length + 1 := by
  rw [← List.card_toFinset, ← List.card_toFinset]
  have h : (l ++ [a]).toFinset = insert a l.toFinset := by
    ext x; simp [or_comm]
  rw [h]
  split
  · rename_i hm
    rw [Finset.insert_eq_of_mem (List.mem_toFinset.mpr hm)]
  · rename_i hm
    rw [Finset.card_insert_of_not_mem (by simpa using hm)]

/-- After `add k m` the key `k` holds the returned index and `m`; other keys keep their
entry. -/
theorem mapFind_add {t : VariableTable T} (hinv : Inv t) (k : String) (m : T) (k' : String) :
    mapFind k' (t.add k m).2.data =
      if k = k' then some ((t.add k m).1, m) else mapFind k' t.data := by
  cases h : mapFind k t.data with
  | none =>
    rw [add_absent m h]
    exact mapFind_mapPlace _ h k'
  | some v =>
    rw [add_present hinv m h]
    simp only []
    rw [mapFind_mapSetMeta, h]
    rfl

theorem mem_keys_iff (data : List (String × (Int × T))) (k : String) :
    k ∈ keys data ↔ ∃ v, mapFind k data = some v := by
  have h := mapFind_eq_none_iff k data
  constructor
  · intro hk
    cases hf : mapFind k data with
    | none => exact absurd hk (h.mp hf)
    | some v => exact ⟨v, rfl⟩
  · rintro ⟨v, hv⟩
    by_contra hk
    rw [h.mpr hk] at hv
    exact Option.noConfusion hv

theorem mem_keys_add {t : VariableTable T} (hinv : Inv t) (k : String) (m : T) (k' : String) :
    k' ∈ keys (t.add k m).2.data ↔ k' = k ∨ k' ∈ keys t.data := by
  rw [mem_keys_iff, mem_keys_iff, mapFind_add hinv]
  by_cases h : k = k'
  · simp [h]
  · have h' : ¬ k' = k := fun e => h e.symm
    simp [h, h']

theorem counter_add {t : VariableTable T} (hinv : Inv t) (k : String) (m : T) :
    (t.add k m).2.counter = if k ∈ keys t.data then t.counter else t.counter + 1 := by
  cases h : mapFind k t.data with
  | none =>
    have hk : k ∉ keys t.data := (mapFind_eq_none_iff k t.data).mp h
    rw [add_absent m h, if_neg hk]
  | some v =>
    rw [add_present hinv m h, if_pos ((mem_keys_iff t.data k).mpr ⟨v, h⟩)]

theorem add_fst {t : VariableTable T} (hinv : Inv t) (k : String) (m : T) :
    (t.add k m).1 = if k ∈ keys t.data then t.find k else t.counter := by
  cases h : mapFind k t.data with
  | none =>
    have hk : k ∉ keys t.data := (mapFind_eq_none_iff k t.data).mp h
    rw [add_absent m h, if_neg hk]
  | some v =>
    rw [add_present hinv m h, if_pos ((mem_keys_iff t.data k).mpr ⟨v, h⟩), find_of_some h]

theorem find_add {t : VariableTable T} (hinv : Inv t) (k : String) (m : T) (k' : String) :
    (t.add k m).2.find k' = if k = k' then (t.add k m).1 else t.find k' := by
  by_cases h : k = k'
  · simp [find, mapFind_add hinv, h]
  · simp [find, mapFind_add hinv, h]

theorem mem_keys_build (ops : List (String × T)) (k : String) :
    k ∈ keys (build ops).data ↔ k ∈ ops.map Prod.fst := by
  induction ops using List.reverseRecOn with
  | nil => simp [build, addAll, VariableTable.empty, keys]
  | append_singleton ops op ih =>
    obtain ⟨k₁, m⟩ := op
    rw [build_snoc, mem_keys_add (Inv.build ops), ih]
    simp [or_comm]

theorem counter_build (ops : List (String × T)) :
    (build ops).counter = ((ops.map Prod.fst).dedup.length : Int) := by
  induction ops using List.reverseRecOn with
  | nil => simp [build, addAll, VariableTable.empty]
  | append_singleton ops op ih =>
    obtain ⟨k₁, m⟩ := op
    rw [build_snoc, counter_add (Inv.build ops), List.map_append, List.map_cons, List.map_nil,
      distinct_snoc, ih]
    by_cases h : k₁ ∈ ops.map Prod.fst
    · rw [if_pos ((mem_keys_build ops k₁).mpr h), if_pos h]
    · rw [if_neg (fun h' => h ((mem_keys_build ops k₁).mp h')), if_neg h]
      push_cast
      rfl

/-- The counter never exceeds the number of `add` calls made, so on every sequence of fewer
than `2^31` calls all values of `counter` and all stored indices are values of `int`. -/
theorem counter_build_le (ops : List (String × T)) :
    (build ops).counter ≤ (ops.length : Int) := by
  rw [counter_build]
  have h := (List.dedup_sublist (ops.map Prod.fst)).length_le
  rw [List.length_map] at h
  exact_mod_cast h

theorem lastMeta_snoc (key : String) (ops : List (String × T)) (k : String) (m : T) :
    lastMeta key (ops ++ [(k, m)]) = if k = key then some m else lastMeta key ops := by
  induction ops with
  | nil => simp [lastMeta]
  | cons op rest ih =>
    obtain ⟨k₁, m₁⟩ := op
    show (match lastMeta key (rest ++ [(k, m)]) with
      | some m' => some m'
      | none => if k₁ = key then some m₁ else none) = _
    rw [ih]
    simp only [lastMeta]
    by_cases h : k = key
    · simp [h]
    · simp [h]

theorem meta_build (ops : List (String × T)) (k : String) :
    (mapFind k (build ops).data).map Prod.snd = lastMeta k ops := by
  induction ops using List.reverseRecOn with
  | nil => simp [build, addAll, VariableTable.empty, mapFind, lastMeta]
  | append_singleton ops op ih =>
    obtain ⟨k₁, m⟩ := op
    rw [build_snoc, mapFind_add (Inv.build ops), lastMeta_snoc]
    by_cases h : k₁ = k
    · simp [h]
    · simp [h, ih]

/-- A key that is present keeps its index through any further `add` calls. -/
theorem find_addAll_of_present {t : VariableTable T} (hinv : Inv t) {k : String}
    (hk : k ∈ keys t.data) (ops : List (String × T)) :
    k ∈ keys (t.addAll ops).data ∧ (t.addAll ops).find k = t.find k := by
  induction ops generalizing t with
  | nil => exact ⟨hk, rfl⟩
  | cons op rest ih =>
    obtain ⟨k₁, m⟩ := op
    have hk' : k ∈ keys (t.add k₁ m).2.data := (mem_keys_add hinv k₁ m k).mpr (Or.inr hk)
    have h := ih (hinv.add k₁ m) hk'
    refine ⟨h.1, ?_⟩
    show ((t.add k₁ m).2.addAll rest).find k = t.find k
    rw [h.2, find_add hinv]
    by_cases h1 : k₁ = k
    · subst h1
      rw [if_pos rfl, add_fst hinv, if_pos hk]
    · rw [if_neg h1]

end VariableTable

/-! ## Lookup by index -/

namespace VariableTable

variable {T : Type}

theorem entry_unique {data : List (String × (Int × T))} (hnd : (indices data).Nodup)
    {e e' : String × (Int × T)} (he : e ∈ data) (he' : e' ∈ data) (h : e.2.1 = e'.2.1) :
    e = e' :=
  List.inj_on_of_nodup_map hnd he he' h

theorem scanMeta_of_mem {data : List (String × (Int × T))} (hnd : (indices data).Nodup)
    {k : String} {i : Int} {m : T} (h : (k, (i, m)) ∈ data) : scanMeta i data = some m := by
  induction data with
  | nil => simp at h
  | cons e rest ih =>
    obtain ⟨k₁, v⟩ := e
    by_cases hv : v.1 = i
    · have he : ((k₁, v) : String × (Int × T)) = (k, (i, m)) :=
        entry_unique hnd (List.mem_cons_self _ _) h hv
      injection he with h1 h2
      subst h2
      simp [scanMeta]
    · have hr : (k, (i, m)) ∈ rest := by
        rcases List.mem_cons.mp h with h1 | h1
        · injection h1 with h2 h3
          subst h3
          exact absurd rfl hv
        · exact h1
      have hnd' : (indices rest).Nodup := by
        simp only [indices, List.map_cons, List.nodup_cons] at hnd
        exact hnd.2
      simp [scanMeta, hv, ih hnd' hr]

theorem scanEntry_of_mem {data : List (String × (Int × T))} (hnd : (indices data).Nodup)
    {k : String} {i : Int} {m : T} (h : (k, (i, m)) ∈ data) :
    scanEntry i data = Outcome.returned (some (k, m)) := by
  induction data with
  | nil => simp at h
  | cons e rest ih =>
    obtain ⟨k₁, v⟩ := e
    by_cases hv : v.1 = i
    · have he : ((k₁, v) : String × (Int × T)) = (k, (i, m)) :=
        entry_unique hnd (List.mem_cons_self _ _) h hv
      injection he with h1 h2
      subst h1; subst h2
      simp [scanEntry]
    · have hr : (k, (i, m)) ∈ rest := by
        rcases List.mem_cons.mp h with h1 | h1
        · injection h1 with h2 h3
          subst h3
          exact absurd rfl hv
        · exact h1
      have hnd' : (indices rest).Nodup := by
        simp only [indices, List.map_cons, List.nodup_cons] at hnd
        exact hnd.2
      simp [scanEntry, hv, ih hnd' hr]

/-- When no visited entry stores `index`, the loop of `findByIndex` ends without a
`return`. -/
theorem scanEntry_of_not_mem {data : List (String × (Int × T))} {i : Int}
    (h : i ∉ indices data) : scanEntry i data = Outcome.undefined := by
  induction data with
  | nil => rfl
  | cons e rest ih =>
    obtain ⟨k₁, v⟩ := e
    simp only [indices, List.map_cons, List.mem_cons, not_or] at h
    have hv : ¬ v.1 = i := fun e => h.1 e.symm
    simp [scanEntry, hv, ih h.2]

/-- In a table that satisfies the invariant every index of `[0, counter)` is owned by one
entry, which both lookups by index find. -/
theorem owner_of_index {t : VariableTable T} (hinv : Inv t) {i : Int}
    (hi : 0 ≤ i ∧ i < t.counter) :
    ∃ k m, mapFind k t.data = some (i, m) ∧
      (∀ k' v, mapFind k' t.data = some v → v.1 = i → k' = k) ∧
      t.findMetaByIndex i = some m ∧
      t.findByIndex i = Outcome.returned (some (k, m)) := by
  have hmem : i ∈ indices t.data := (hinv.idx_iff i).mpr hi
  obtain ⟨e, he, hei⟩ := List.mem_map.mp hmem
  obtain ⟨k, j, m⟩ := e
  simp only [] at hei
  subst hei
  have hcond : ¬ (j ≥ t.counter ∨ j < 0) := by omega
  refine ⟨k, m, mem_mapFind hinv.keys_nodup he, ?_, ?_, ?_⟩
  · intro k' v hv hvi
    have := entry_unique hinv.idx_nodup (mapFind_some_mem hv) he hvi
    exact congrArg Prod.fst this
  · simp only [findMetaByIndex, if_neg hcond]
    exact scanMeta_of_mem hinv.idx_nodup he
  · simp only [findByIndex, if_neg hcond]
    exact scanEntry_of_mem hinv.idx_nodup he

theorem mapSetMeta_key_index (k : String) (m : T) (data : List (String × (Int × T))) :
    (mapSetMeta k m data).map (fun e => (e.1, e.2.1)) = data.map (fun e => (e.1, e.2.1)) := by
  induction data with
  | nil => rfl
  | cons e rest ih =>
    obtain ⟨k', w⟩ := e
    unfold mapSetMeta
    split <;> simp [ih]

end VariableTable

/-! ## Properties of `VariableTable` -/

namespace VariableTable

variable {T : Type}

/-- C1: in a sequence of `add` calls on the empty table, a call `add(k, m)` whose key was not
added earlier (the calls before it are `pre`) returns the number of distinct keys added
before it, and a later call `add(k, m')`, after any further calls `mid`, returns that same
index whatever metadata it passes. -/
theorem add_first_and_later_index (pre mid : List (String × T)) (k : String) (m m' : T)
    (hnew : k ∉ pre.map Prod.fst) :
    ((build pre).add k m).1 = ((pre.map Prod.fst).dedup.length : Int) ∧
      ((build (pre ++ (k, m) :: mid)).add k m').1 = ((build pre).add k m).1 := by
  have hinv := Inv.build pre
  have hk : k ∉ keys (build pre).data := fun h => hnew ((mem_keys_build pre k).mp h)
  have h1 : ((build pre).add k m).1 = (build pre).counter := by
    rw [add_fst hinv, if_neg hk]
  refine ⟨by rw [h1, counter_build], ?_⟩
  have hsplit : build (pre ++ (k, m) :: mid) = (((build pre).add k m).2).addAll mid := by
    simp [build, addAll_append, VariableTable.addAll]
  have hinv1 := hinv.add k m
  have hk1 : k ∈ keys ((build pre).add k m).2.data :=
    (mem_keys_add hinv k m k).mpr (Or.inl rfl)
  have h2 := find_addAll_of_present hinv1 hk1 mid
  rw [hsplit, add_fst (hinv1.addAll mid), if_pos h2.1, h2.2, find_add hinv, if_pos rfl]

/-- Witness of C1: after `add("sum")`, the new key `mult` is added, then `sum` again, then
`mult` again with other metadata. -/
theorem add_first_and_later_index_witness :
    "mult" ∉ sumOnly.map Prod.fst ∧
      (((build sumOnly).add "mult" {}).1 = ((sumOnly.map Prod.fst).dedup.length : Int) ∧
        ((build (sumOnly ++ ("mult", {}) :: sumAgain)).add "mult" otherMeta).1 =
          ((build sumOnly).add "mult" {}).1) :=
  ⟨by decide, add_first_and_later_index sumOnly sumAgain "mult" {} otherMeta (by decide)⟩

/-- C2: every table built from the empty table by `add` calls has `counter` equal to the
number of entries, keys that are pairwise different, all stored indices in `[0, counter)`,
and every integer of `[0, counter)` stored by exactly one key. -/
theorem build_invariant (ops : List (String × T)) :
    (build ops).counter = ((build ops).data.length : Int) ∧
      ((build ops).data.map Prod.fst).Nodup ∧
      (∀ e ∈ (build ops).data, 0 ≤ e.2.1 ∧ e.2.1 < (build ops).counter) ∧
      (∀ i : Int, 0 ≤ i ∧ i < (build ops).counter →
        ∃! k, ∃ m, (k, (i, m)) ∈ (build ops).data) := by
  have hinv := Inv.build ops
  refine ⟨hinv.size, hinv.keys_nodup, ?_, ?_⟩
  · intro e he
    exact (hinv.idx_iff e.2.1).mp (List.mem_map.mpr ⟨e, he, rfl⟩)
  · intro i hi
    obtain ⟨k, m, hk, huniq, -, -⟩ := owner_of_index hinv hi
    refine ⟨k, ⟨m, mapFind_some_mem hk⟩, ?_⟩
    rintro k' ⟨m', hm'⟩
    exact huniq k' (i, m') (mem_mapFind hinv.keys_nodup hm') rfl

/-- C3: on a table built by `add` calls, after `add(k, m)` has returned `i`, the key `k` is
present with the entry `(i, m)`, `i` is an index of `[0, counter)`, and `find(k)` returns
`i`, which is not the not-found value `-1`; `find` returns `-1` for a key never passed to
`add`; and `find("sum")` on the empty table is `-1`. -/
theorem find_after_add (ops : List (String × T)) (k : String) (m : T) :
    (((build ops).add k m).2.find k = ((build ops).add k m).1 ∧
        ((build ops).add k m).2.find k ≠ -1 ∧
        0 ≤ ((build ops).add k m).1 ∧
        ((build ops).add k m).1 < ((build ops).add k m).2.counter ∧
        mapFind k ((build ops).add k m).2.data = some (((build ops).add k m).1, m)) ∧
      (∀ k', k' ∉ ops.map Prod.fst → (build ops).find k' = -1) ∧
      (empty : VariableTable T).find "sum" = -1 := by
  have hinv := Inv.build ops
  have hentry : mapFind k ((build ops).add k m).2.data = some (((build ops).add k m).1, m) := by
    rw [mapFind_add hinv, if_pos rfl]
  have hrange := ((hinv.add k m).idx_iff _).mp (mem_indices_of_mapFind hentry)
  have hfind : ((build ops).add k m).2.find k = ((build ops).add k m).1 := by
    rw [find_add hinv, if_pos rfl]
  refine ⟨⟨hfind, ?_, hrange.1, hrange.2, hentry⟩, ?_, rfl⟩
  · rw [hfind]
    have h0 := hrange.1
    simp only [] at h0
    omega
  · intro k' hk'
    apply find_of_none
    rw [mapFind_eq_none_iff]
    exact fun h => hk' ((mem_keys_build ops k').mp h)

/-- C4: on a table built by `add` calls, `findMetaByIndex(i)` is `nullptr` for `i < 0` or
`i >= counter`; for `0 <= i < counter` it returns the metadata `m` of the one key `k` whose
stored index is `i`, and `m` is the metadata most recently passed to `add` for `k`. -/
theorem findMetaByIndex_spec (ops : List (String × T)) (i : Int) :
    ((i < 0 ∨ i ≥ (build ops).counter) → (build ops).findMetaByIndex i = none) ∧
      ((0 ≤ i ∧ i < (build ops).counter) →
        ∃ k m, (build ops).findMetaByIndex i = some m ∧
          mapFind k (build ops).data = some (i, m) ∧
          (∀ k' v, mapFind k' (build ops).data = some v → v.1 = i → k' = k) ∧
          lastMeta k ops = some m) := by
  constructor
  · intro h
    have hc : i ≥ (build ops).counter ∨ i < 0 := h.symm
    simp [findMetaByIndex, hc]
  · intro hi
    obtain ⟨k, m, hk, huniq, hmeta, -⟩ := owner_of_index (Inv.build ops) hi
    refine ⟨k, m, hmeta, hk, huniq, ?_⟩
    rw [← meta_build, hk]
    rfl

/-- C5: on a table built by `add` calls, `add(k, m')` for a key that is already present
returns the index of `k`, leaves `counter`, the number of entries and the key and index of
every entry as they were, stores `m'` as the metadata of `k`, and leaves the entry of every
other key unchanged. -/
theorem add_existing_key (ops : List (String × T)) (k : String) (m' : T)
    (hk : k ∈ ops.map Prod.fst) :
    ((build ops).add k m').1 = (build ops).find k ∧
      ((build ops).add k m').2.counter = (build ops).counter ∧
      ((build ops).add k m').2.data.length = (build ops).data.length ∧
      ((build ops).add k m').2.data.map (fun e => (e.1, e.2.1)) =
        (build ops).data.map (fun e => (e.1, e.2.1)) ∧
      ((build ops).add k m').2.find k = (build ops).find k ∧
      mapFind k ((build ops).add k m').2.data = some ((build ops).find k, m') ∧
      (∀ k', k' ≠ k →
        mapFind k' ((build ops).add k m').2.data = mapFind k' (build ops).data) := by
  have hinv := Inv.build ops
  have hmem : k ∈ keys (build ops).data := (mem_keys_build ops k).mpr hk
  obtain ⟨v, hv⟩ := (mem_keys_iff _ k).mp hmem
  have hfst : ((build ops).add k m').1 = (build ops).find k := by
    rw [add_fst hinv, if_pos hmem]
  have hdata : ((build ops).add k m').2.data = mapSetMeta k m' (build ops).data := by
    rw [add_present hinv m' hv]
  have hki := mapSetMeta_key_index k m' (build ops).data
  refine ⟨hfst, ?_, ?_, ?_, ?_, ?_, ?_⟩
  · rw [counter_add hinv, if_pos hmem]
  · rw [hdata]
    simpa using congrArg List.length hki
  · rw [hdata]
    exact hki
  · rw [find_add hinv, if_pos rfl, hfst]
  · rw [mapFind_add hinv, if_pos rfl, hfst]
  · intro k' hne
    rw [mapFind_add hinv, if_neg (fun h => hne h.symm)]

/-- Witness of C5: the call `add("mult")` of the test, made when `mult` is present at
index 1 in a table of size 2. -/
theorem add_existing_key_witness :
    "mult" ∈ sumMult.map Prod.fst ∧
      ((build sumMult).add "mult" otherMeta).1 = 1 ∧
      ((build sumMult).add "mult" otherMeta).2.data.length = 2 ∧
      ((build sumMult).add "mult" otherMeta).1 = (build sumMult).find "mult" :=
  ⟨by decide, by decide, by decide, (add_existing_key sumMult "mult" otherMeta (by decide)).1⟩

/-- C6: on a table built by `add` calls, `findByIndex(i)` returns `nullptr` for `i < 0` or
`i >= counter`; for `0 <= i < counter` it returns the pair of the one key `k` whose stored
index is `i` and the metadata that `findMetaByIndex(i)` returns; the end of the function
body is never reached without a `return`. -/
theorem findByIndex_spec (ops : List (String × T)) (i : Int) :
    ((i < 0 ∨ i ≥ (build ops).counter) →
        (build ops).findByIndex i = Outcome.returned none) ∧
      ((0 ≤ i ∧ i < (build ops).counter) →
        ∃ k m, (build ops).findByIndex i = Outcome.returned (some (k, m)) ∧
          (build ops).findMetaByIndex i = some m ∧
          mapFind k (build ops).data = some (i, m) ∧
          (∀ k' v, mapFind k' (build ops).data = some v → v.1 = i → k' = k)) ∧
      (build ops).findByIndex i ≠ Outcome.undefined := by
  have hout : (i < 0 ∨ i ≥ (build ops).counter) →
      (build ops).findByIndex i = Outcome.returned none := by
    intro h
    have hc : i ≥ (build ops).counter ∨ i < 0 := h.symm
    simp [findByIndex, hc]
  have hin : (0 ≤ i ∧ i < (build ops).counter) →
      ∃ k m, (build ops).findByIndex i = Outcome.returned (some (k, m)) ∧
        (build ops).findMetaByIndex i = some m ∧
        mapFind k (build ops).data = some (i, m) ∧
        (∀ k' v, mapFind k' (build ops).data = some v → v.1 = i → k' = k) := by
    intro hi
    obtain ⟨k, m, hk, huniq, hmeta, hentry⟩ := owner_of_index (Inv.build ops) hi
    exact ⟨k, m, hentry, hmeta, hk, huniq⟩
  refine ⟨hout, hin, ?_⟩
  by_cases hi : 0 ≤ i ∧ i < (build ops).counter
  · obtain ⟨k, m, h, -⟩ := hin hi
    rw [h]
    exact fun e => Outcome.noConfusion e
  · have hc : i < 0 ∨ i ≥ (build ops).counter := by omega
    rw [hout hc]
    exact fun e => Outcome.noConfusion e

/-- C7, the failing state: after `add("x")` and a `data.clear()` through the public member,
`counter` is 1 and no entry stores index 0; `findByIndex(0)` then runs its loop to the end
and leaves the function without a `return`, while `findMetaByIndex(0)` returns `nullptr`. -/
theorem findByIndex_no_match_undefined :
    ({ ((empty : VariableTable MetaData).add "x" {}).2 with data := [] } :
        VariableTable MetaData).counter = 1 ∧
      ({ ((empty : VariableTable MetaData).add "x" {}).2 with data := [] } :
        VariableTable MetaData).findByIndex 0 = Outcome.undefined ∧
      ({ ((empty : VariableTable MetaData).add "x" {}).2 with data := [] } :
        VariableTable MetaData).findMetaByIndex 0 = none := by
  decide

end VariableTable

/-! ## Extraction of one record from a stream -/

namespace IStream

theorem isspace_not_digit {c : Char} (h : isspace c = true) : isdigit c = false := by
  simp only [isspace, isdigit, Bool.or_eq_true, Bool.and_eq_true, beq_iff_eq,
    decide_eq_true_eq] at h
  simp only [isdigit, Bool.and_eq_false_imp, decide_eq_true_eq, decide_eq_false_iff_not]
  omega

theorem isdigit_not_space {c : Char} (h : isdigit c = true) : isspace c = false := by
  cases hs : isspace c with
  | false => rfl
  | true => rw [isspace_not_digit hs] at h; exact Bool.noConfusion h

theorem isdigit_ne_sign {c : Char} (h : isdigit c = true) : c ≠ '-' ∧ c ≠ '+' := by
  constructor
  · rintro rfl
    exact absurd h (by decide)
  · rintro rfl
    exact absurd h (by decide)

/-- The sentry skips the whitespace `ws` in front of a character that is not whitespace. -/
theorem sentry_skip {ws : List Char} (hws : ∀ c ∈ ws, isspace c = true) {c : Char}
    (hc : isspace c = false) (cs : List Char) :
    sentry { rest := ws ++ c :: cs } = ({ rest := c :: cs }, true) := by
  have h1 : (ws ++ c :: cs).dropWhile isspace = c :: cs := by
    rw [List.dropWhile_append_of_pos hws, List.dropWhile_cons_of_neg (by simp [hc])]
  simp [sentry, good, h1]

/-- On a stream that holds nothing but whitespace the sentry reaches the end. -/
theorem sentry_at_end {ws : List Char} (hws : ∀ c ∈ ws, isspace c = true) :
    sentry { rest := ws } = ({ rest := [], eofbit := true, failbit := true }, false) := by
  have h1 : ws.dropWhile isspace = [] := List.dropWhile_eq_nil_iff.mpr hws
  simp [sentry, good, h1]

theorem sentry_not_good {s : IStream} (h : s.good = false) :
    sentry s = ({ s with failbit := true }, false) := by
  simp [sentry, h]

end IStream

/-- The parts of the well-formedness of a record. -/
theorem Record.wellFormed_iff (r : Record) :
    r.wellFormed = true ↔
      (∀ c ∈ r.lead, isspace c = true) ∧
      (r.sign = [] ∨ r.sign = ['+'] ∨ r.sign = ['-']) ∧
      (r.digits ≠ [] ∧ ∀ c ∈ r.digits, isdigit c = true) ∧
      (r.sep ≠ [] ∧ ∀ c ∈ r.sep, isspace c = true) ∧
      (r.key ≠ [] ∧ ∀ c ∈ r.key, isspace c = false) ∧
      (INT_MIN ≤ r.value ∧ r.value ≤ INT_MAX) := by
  simp [Record.wellFormed, and_assoc, or_assoc, List.isEmpty_iff]

namespace IStream

/-- The digits of a number that is followed by whitespace are collected in full. -/
theorem digits_split {ds : List Char} (hds : ∀ c ∈ ds, isdigit c = true) {w : Char}
    (hw : isspace w = true) (cs : List Char) :
    (ds ++ w :: cs).takeWhile isdigit = ds ∧ (ds ++ w :: cs).dropWhile isdigit = w :: cs := by
  have hnd : ¬ isdigit w = true := by simp [isspace_not_digit hw]
  constructor
  · rw [List.takeWhile_append_of_pos hds, List.takeWhile_cons_of_neg hnd, List.append_nil]
  · rw [List.dropWhile_append_of_pos hds, List.dropWhile_cons_of_neg hnd]

/-- The extraction `file >> num` in front of a well-formed record reads its integer and stops
at the whitespace behind it, with no state flag set. -/
theorem readInt_record {r : Record} (hwf : r.wellFormed = true) (tailT : List Char)
    (num : Int) :
    readInt { rest := r.text ++ tailT } num =
      ({ rest := r.sep ++ (r.key ++ tailT) }, r.value) := by
  obtain ⟨hlead, hsign, ⟨hdne, hdig⟩, ⟨hsne, hsep⟩, -, hmin, hmax⟩ :=
    (Record.wellFormed_iff r).mp hwf
  obtain ⟨lead, sign, digits, sep, key⟩ := r
  simp only [] at hlead hsign hdne hdig hsne hsep
  cases digits with
  | nil => exact absurd rfl hdne
  | cons d ds =>
  cases sep with
  | nil => exact absurd rfl hsne
  | cons w ws =>
  have hd : isdigit d = true := hdig d (List.mem_cons_self _ _)
  have hw : isspace w = true := hsep w (List.mem_cons_self _ _)
  have hsplit := digits_split hdig hw (ws ++ (key ++ tailT))
  have hmax' : ¬ (Record.value ⟨lead, sign, d :: ds, w :: ws, key⟩ > INT_MAX) := by omega
  have hmin' : ¬ (Record.value ⟨lead, sign, d :: ds, w :: ws, key⟩ < INT_MIN) := by omega
  rcases hsign with hs | hs | hs
  · subst hs
    have htext : Record.text ⟨lead, [], d :: ds, w :: ws, key⟩ ++ tailT =
        lead ++ d :: (ds ++ w :: (ws ++ (key ++ tailT))) := by
      simp [Record.text]
    rw [htext]
    have hv : Record.value ⟨lead, [], d :: ds, w :: ws, key⟩ =
        (digitsValue (d :: ds) : Int) := by
      simp [Record.value]
    rw [hv] at hmax' hmin' ⊢
    have hsd := isdigit_ne_sign hd
    simp only [List.cons_append] at hsplit
    simp only [readInt, sentry_skip hlead (isdigit_not_space hd), hsd.1, hsd.2, if_false,
      hsplit.1, hsplit.2, List.isEmpty_cons, Bool.false_eq_true, hmax', hmin']
    rfl
  · subst hs
    have htext : Record.text ⟨lead, ['+'], d :: ds, w :: ws, key⟩ ++ tailT =
        lead ++ '+' :: (d :: ds ++ w :: (ws ++ (key ++ tailT))) := by
      simp [Record.text]
    rw [htext]
    have hv : Record.value ⟨lead, ['+'], d :: ds, w :: ws, key⟩ =
        (digitsValue (d :: ds) : Int) := by
      simp [Record.value]
    rw [hv] at hmax' hmin' ⊢
    have hplus : isspace '+' = false := by decide
    have hne : ¬ ('+' = '-') := by decide
    simp only [readInt, sentry_skip hlead hplus, hne, if_false, if_true,
      hsplit.1, hsplit.2, List.isEmpty_cons, Bool.false_eq_true, hmax', hmin']
    rfl
  · subst hs
    have htext : Record.text ⟨lead, ['-'], d :: ds, w :: ws, key⟩ ++ tailT =
        lead ++ '-' :: (d :: ds ++ w :: (ws ++ (key ++ tailT))) := by
      simp [Record.text]
    rw [htext]
    have hv : Record.value ⟨lead, ['-'], d :: ds, w :: ws, key⟩ =
        -(digitsValue (d :: ds) : Int) := by
      simp [Record.value]
    rw [hv] at hmax' hmin' ⊢
    have hminus : isspace '-' = false := by decide
    simp only [readInt, sentry_skip hlead hminus, if_true,
      hsplit.1, hsplit.2, List.isEmpty_cons, Bool.false_eq_true, if_false, hmax', hmin']
    rfl

end IStream

namespace IStream

/-- A string without whitespace is collected up to the following whitespace or the end. -/
theorem word_split {key : List Char} (hkey : ∀ c ∈ key, isspace c = false)
    {tailT : List Char} (htail : ∀ c ∈ tailT.head?, isspace c = true) :
    (key ++ tailT).takeWhile (fun c => !isspace c) = key ∧
      (key ++ tailT).dropWhile (fun c => !isspace c) = tailT := by
  have hpos : ∀ c ∈ key, (fun c => !isspace c) c = true := by
    intro c hc
    simp [hkey c hc]
  cases tailT with
  | nil =>
    simp only [List.append_nil]
    exact ⟨List.takeWhile_eq_self_iff.mpr hpos, List.dropWhile_eq_nil_iff.mpr hpos⟩
  | cons w ws =>
    have hw : isspace w = true := htail w (by simp)
    constructor
    · rw [List.takeWhile_append_of_pos hpos]
      simp [List.takeWhile_cons, hw]
    · rw [List.dropWhile_append_of_pos hpos]
      simp [List.dropWhile_cons, hw]

/-- The extraction `file >> str` behind the integer of a well-formed record reads its
string; `eofbit` is set exactly when nothing follows the string. -/
theorem readString_record {r : Record} (hwf : r.wellFormed = true) {tailT : List Char}
    (htail : ∀ c ∈ tailT.head?, isspace c = true) (str : String) :
    readString { rest := r.sep ++ (r.key ++ tailT) } str =
      ({ rest := tailT, eofbit := tailT.isEmpty, failbit := false }, String.mk r.key) := by
  obtain ⟨-, -, -, ⟨-, hsep⟩, ⟨hkne, hkey⟩, -⟩ := (Record.wellFormed_iff r).mp hwf
  obtain ⟨lead, sign, digits, sep, key⟩ := r
  simp only [] at hsep hkne hkey
  cases key with
  | nil => exact absurd rfl hkne
  | cons c cs =>
  have hc : isspace c = false := hkey c (List.mem_cons_self _ _)
  have hsplit := word_split hkey htail
  simp only [List.cons_append] at hsplit
  simp only [readString, List.cons_append, sentry_skip hsep hc, hsplit.1, hsplit.2]

/-- At the end of the stream `file >> num` sets `eofbit` and `failbit` and leaves `num`. -/
theorem readInt_at_end {ws : List Char} (hws : ∀ c ∈ ws, isspace c = true) (num : Int) :
    readInt { rest := ws } num = ({ rest := [], eofbit := true, failbit := true }, num) := by
  simp only [readInt, sentry_at_end hws]

/-- On a stream that is not `good()` the extraction `file >> str` leaves `str`. -/
theorem readString_not_good {s : IStream} (h : s.good = false) (str : String) :
    readString s str = ({ s with failbit := true }, str) := by
  simp only [readString, sentry_not_good h]

end IStream

/-! ## The read loop on a well-formed source -/

theorem mapFind_mapInsert {V : Type} (k : String) (v : V) (data : List (String × V))
    (k' : String) :
    mapFind k' (mapInsert k v data) =
      if k = k' then some ((mapFind k data).getD v) else mapFind k' data := by
  unfold mapInsert
  cases h : mapFind k data with
  | none =>
    simp only [Option.getD_none]
    exact mapFind_mapPlace v h k'
  | some x =>
    by_cases hk : k = k'
    · subst hk
      simp [h]
    · simp [hk]

theorem mapFind_insertAll (k : String) (rs : List Record) (data : List (String × Int)) :
    mapFind k (insertAll data rs) =
      match mapFind k data with
      | some v => some v
      | none => firstValue k rs := by
  induction rs generalizing data with
  | nil =>
    simp only [insertAll, firstValue]
    cases mapFind k data <;> rfl
  | cons r rs ih =>
    simp only [insertAll, firstValue]
    rw [ih, mapFind_mapInsert]
    by_cases hk : String.mk r.key = k
    · subst hk
      cases mapFind (String.mk r.key) data <;> simp
    · simp only [if_neg hk]

theorem firstValue_of_mem {rs : List Record} (hnd : (rs.map Record.key).Nodup) {r : Record}
    (hr : r ∈ rs) : firstValue (String.mk r.key) rs = some r.value := by
  induction rs with
  | nil => simp at hr
  | cons r₁ rs ih =>
    simp only [List.map_cons, List.nodup_cons] at hnd
    rcases List.mem_cons.mp hr with h | h
    · subst h
      simp [firstValue]
    · have hne : ¬ String.mk r₁.key = String.mk r.key := by
        intro he
        have hk : r₁.key = r.key := by injection he
        exact hnd.1 (hk ▸ List.mem_map_of_mem Record.key h)
      simp only [firstValue, if_neg hne]
      exact ih hnd.2 h

namespace ConstTable

theorem readLoop_eof (uninit : Nat → Int) (fuel i : Nat) {file : IStream}
    (h : file.eofbit = true) (data : List (String × Int)) :
    readLoop uninit fuel i file data = some data := by
  cases fuel <;> simp [readLoop, h]

/-- A well-formed source that is not empty starts with whitespace or is the text of records
that start with whitespace. -/
theorem sourceText_head {rs : List Record} {trail : List Char}
    (hlead : ∀ r ∈ rs, r.lead ≠ []) (hwf : ∀ r ∈ rs, r.wellFormed = true)
    (htrail : ∀ c ∈ trail, isspace c = true) :
    ∀ c ∈ (sourceText rs trail).head?, isspace c = true := by
  cases rs with
  | nil =>
    intro c hc
    cases trail with
    | nil => simp [sourceText] at hc
    | cons w ws =>
      simp only [sourceText, List.head?_cons, Option.mem_def, Option.some.injEq] at hc
      exact htrail c (hc ▸ List.mem_cons_self _ _)
  | cons r rs =>
    intro c hc
    have hne := hlead r (List.mem_cons_self _ _)
    obtain ⟨hl, -⟩ := (Record.wellFormed_iff r).mp (hwf r (List.mem_cons_self _ _))
    cases hr : r.lead with
    | nil => exact absurd hr hne
    | cons w ws =>
      simp only [sourceText, Record.text, hr, List.cons_append, List.head?_cons,
        Option.mem_def, Option.some.injEq] at hc
      exact hl c (by rw [hr, ← hc]; exact List.mem_cons_self _ _)

theorem sourceText_cons_ne_nil {r : Record} (hwf : r.wellFormed = true) (rs : List Record)
    (trail : List Char) : sourceText (r :: rs) trail ≠ [] := by
  obtain ⟨-, -, ⟨hd, -⟩, -⟩ := (Record.wellFormed_iff r).mp hwf
  intro h
  simp only [sourceText, Record.text, List.append_eq_nil] at h
  exact hd h.1.2.2.1

/-- On a well-formed source the loop ends within one iteration per record and one more, and
its map agrees, on every key but the empty string, with the map in which each record was
inserted in turn. -/
theorem readLoop_records (uninit : Nat → Int) (trail : List Char)
    (htrail : ∀ c ∈ trail, isspace c = true) (rs : List Record)
    (hwf : ∀ r ∈ rs, r.wellFormed = true) (hlead : ∀ r ∈ rs.tail, r.lead ≠ [])
    (fuel i : Nat) (data : List (String × Int)) (hfuel : rs.length + 1 ≤ fuel) :
    ∃ data', readLoop uninit fuel i { rest := sourceText rs trail } data = some data' ∧
      ∀ k, k ≠ "" → mapFind k data' = mapFind k (insertAll data rs) := by
  induction rs generalizing fuel i data with
  | nil =>
    obtain ⟨f, rfl⟩ : ∃ f, fuel = f + 1 := ⟨fuel - 1, by simp at hfuel; omega⟩
    refine ⟨mapInsert "" (uninit i) data, ?_, ?_⟩
    · simp only [readLoop, sourceText, IStream.readInt_at_end htrail]
      rw [IStream.readString_not_good (by rfl)]
      simp only [Bool.false_eq_true, if_false]
      exact readLoop_eof uninit f (i + 1) rfl _
    · intro k hk
      rw [mapFind_mapInsert, if_neg (fun h => hk h.symm)]
      rfl
  | cons r rs ih =>
    obtain ⟨f, rfl⟩ : ∃ f, fuel = f + 1 := ⟨fuel - 1, by simp at hfuel; omega⟩
    have hf : rs.length + 1 ≤ f := by simp at hfuel; omega
    have hr := hwf r (List.mem_cons_self _ _)
    have hwf' : ∀ r' ∈ rs, r'.wellFormed = true := fun r' h => hwf r' (List.mem_cons_of_mem _ h)
    have hlead' : ∀ r' ∈ rs, r'.lead ≠ [] := by simpa using hlead
    have hhead := sourceText_head hlead' hwf' htrail
    have hstep : readLoop uninit (f + 1) i { rest := sourceText (r :: rs) trail } data =
        readLoop uninit f (i + 1)
          { rest := sourceText rs trail, eofbit := (sourceText rs trail).isEmpty }
          (mapInsert (String.mk r.key) r.value data) := by
      simp only [readLoop, sourceText, IStream.readInt_record hr,
        IStream.readString_record hr hhead, Bool.false_eq_true, if_false]
    rw [hstep]
    cases hrest : sourceText rs trail with
    | nil =>
      have hrs : rs = [] := by
        cases rs with
        | nil => rfl
        | cons r' rs' =>
          exact absurd hrest (sourceText_cons_ne_nil (hwf' r' (List.mem_cons_self _ _)) _ _)
      subst hrs
      exact ⟨_, readLoop_eof uninit f (i + 1) rfl _, fun k _ => rfl⟩
    | cons c cs =>
      have := ih hwf' (fun r' h => hlead' r' (List.mem_of_mem_tail h)) f (i + 1)
        (mapInsert (String.mk r.key) r.value data) hf
      rw [hrest] at this
      exact this

end ConstTable

/-! ## Properties of `ConstTable` -/

namespace ConstTable

/-- C8, counterexample: the source `-1 minus` loads the key `minus` with index -1; `find`
then returns -1, the not-found value, for a key that is present. -/
theorem find_not_found_collides :
    readFromFile (fun _ => some "-1 minus") (fun _ => 0) 1 {} "const_tables/keywords.txt" =
        some { thrown := none, table := { data := [("minus", -1)] } } ∧
      ¬ (({ data := [("minus", -1)] } : ConstTable).find "minus" = -1 ↔
          "minus" ∉ ([("minus", -1)] : List (String × Int)).map Prod.fst) := by
  decide

/-- C8, amended: `find(k)` returns the index stored for `k` when `k` is a key and -1 when it
is not, so it returns -1 exactly when `k` is not a key or the index stored for `k` is -1. -/
theorem find_eq_neg_one_iff (t : ConstTable) (k : String) :
    (∀ v, mapFind k t.data = some v → t.find k = v) ∧
      (k ∉ t.data.map Prod.fst → t.find k = -1) ∧
      (t.find k = -1 ↔ (k ∉ t.data.map Prod.fst ∨ mapFind k t.data = some (-1))) := by
  have hnone := mapFind_eq_none_iff k t.data
  cases h : mapFind k t.data with
  | none =>
    have hk : k ∉ t.data.map Prod.fst := hnone.mp h
    simp [find, h, hk]
  | some v =>
    have hk : ¬ k ∉ t.data.map Prod.fst := fun hk => by
      rw [hnone.mpr hk] at h
      exact Option.noConfusion h
    simp only [find, h, Option.some.injEq, forall_eq', true_and]
    exact ⟨fun h' => absurd h' hk, fun h' => Or.inr h', fun h' => h'.resolve_left hk⟩

/-- C9: when the file holds a well-formed source (well-formed `<integer> <string>` records
separated by whitespace) with pairwise different keys, `readFromFile` on an empty table
returns, after at most one loop iteration per record and one more, without an exception,
and `find` then returns the integer of every record. -/
theorem readFromFile_finds_records (fs : String → Option String) (uninit : Nat → Int)
    (filePath : String) (rs : List Record) (trail : List Char) (fuel : Nat)
    (hfile : fs filePath = some (String.mk (sourceText rs trail)))
    (hwf : wellFormedSource rs trail = true)
    (hkeys : (rs.map Record.key).Nodup)
    (hfuel : rs.length + 1 ≤ fuel) :
    ∃ t : ConstTable,
      readFromFile fs uninit fuel {} filePath = some { thrown := none, table := t } ∧
        ∀ r ∈ rs, t.find (String.mk r.key) = r.value := by
  simp only [wellFormedSource, Bool.and_eq_true, List.all_eq_true, Bool.not_eq_true',
    List.isEmpty_eq_false] at hwf
  obtain ⟨⟨hrec, hlead⟩, htrail⟩ := hwf
  obtain ⟨data', hloop, hfind⟩ :=
    readLoop_records uninit trail htrail rs hrec hlead fuel 0 [] hfuel
  refine ⟨{ data := data' }, ?_, ?_⟩
  · simp only [readFromFile, hfile]
    rw [hloop]
  · intro r hr
    obtain ⟨-, -, -, -, ⟨hkne, -⟩, -⟩ := (Record.wellFormed_iff r).mp (hrec r hr)
    have hne : String.mk r.key ≠ "" := by
      intro h
      exact hkne (congrArg String.data h)
    simp only [find]
    rw [hfind _ hne, mapFind_insertAll, firstValue_of_mem hkeys hr]
    rfl

end ConstTable

namespace ConstTable

/-- Witness of C9: the keyword file `0 int`, `1 main`, `2 if` of the scenario, where
`find("main")` is 1. -/
theorem readFromFile_finds_records_witness :
    fileWith keywordsText "const_tables/keywords.txt" =
        some (String.mk (sourceText keywordsRecords ['\n'])) ∧
      wellFormedSource keywordsRecords ['\n'] = true ∧
      (keywordsRecords.map Record.key).Nodup ∧
      keywordsRecords.length + 1 ≤ 4 ∧
      (∃ t : ConstTable,
        readFromFile (fileWith keywordsText) (fun _ => 0) 4 {} "const_tables/keywords.txt" =
            some { thrown := none, table := t } ∧
          ∀ r ∈ keywordsRecords, t.find (String.mk r.key) = r.value) ∧
      (readFromFile (fileWith keywordsText) (fun _ => 0) 4 {}
        "const_tables/keywords.txt").map (fun res => res.table.find "main") = some 1 :=
  ⟨by decide, by decide, by decide, by decide,
    readFromFile_finds_records (fileWith keywordsText) (fun _ => 0) "const_tables/keywords.txt"
      keywordsRecords ['\n'] 4 (by decide) (by decide) (by decide) (by decide),
    by decide⟩

set_option maxHeartbeats 4000000 in
/-- C10, the failing inputs: on the keyword file that ends with a newline the loop runs a
fourth time after the last record and inserts an entry with the empty key (and whatever
value `num` holds); on an empty file the only iteration inserts such an entry. -/
theorem readFromFile_spurious_entry (uninit : Nat → Int) :
    readFromFile (fileWith keywordsText) uninit 4 {} "const_tables/keywords.txt" =
        some { thrown := none,
               table := { data := [("", uninit 3), ("if", 2), ("int", 0), ("main", 1)] } } ∧
      readFromFile (fileWith "") uninit 1 {} "const_tables/keywords.txt" =
        some { thrown := none, table := { data := [("", uninit 0)] } } :=
  ⟨rfl, rfl⟩

end ConstTable

/-! ## Round trip and frame properties of `VariableTable` -/

namespace VariableTable

variable {T : Type}

/-- C14: on a table built by `add` calls, after `i = add(k, m)` the lookups
`findMetaByIndex(i)` and `findByIndex(i)` yield `m` and `(k, m)`; and for every `i` of
`[0, counter)` the key that `findByIndex(i)` returns is one for which `find` returns `i`. -/
theorem lookup_round_trip (ops : List (String × T)) (k : String) (m : T) :
    ((build ops).add k m).2.findMetaByIndex ((build ops).add k m).1 = some m ∧
      ((build ops).add k m).2.findByIndex ((build ops).add k m).1 =
        Outcome.returned (some (k, m)) ∧
      (∀ i : Int, 0 ≤ i ∧ i < (build ops).counter →
        ∃ k' m', (build ops).findByIndex i = Outcome.returned (some (k', m')) ∧
          (build ops).find k' = i) := by
  have hinv := Inv.build ops
  have hinv' := hinv.add k m
  have hfind : mapFind k ((build ops).add k m).2.data = some (((build ops).add k m).1, m) := by
    rw [mapFind_add hinv, if_pos rfl]
  have hrange := (hinv'.idx_iff _).mp (mem_indices_of_mapFind hfind)
  obtain ⟨k₀, m₀, hk₀, huniq, hmeta, hentry⟩ := owner_of_index hinv' hrange
  have hk : k = k₀ := huniq k _ hfind rfl
  subst hk
  have hm : m₀ = m := by
    rw [hfind] at hk₀
    injection hk₀ with h1
    injection h1 with h2 h3
    exact h3.symm
  subst hm
  refine ⟨hmeta, hentry, ?_⟩
  intro i hi
  obtain ⟨k', m', hk', -, -, hentry'⟩ := owner_of_index hinv hi
  exact ⟨k', m', hentry', find_of_some hk'⟩

/-- C15: on a table built by `add` calls, `add(k, m)` leaves the entry of every other key
`k'` as it was: `find(k')` returns the same result, and the index and metadata stored for
`k'` (or its absence) are the same before and after, whether `k` is new or present. -/
theorem add_frame (ops : List (String × T)) (k k' : String) (m : T) (hne : k ≠ k') :
    ((build ops).add k m).2.find k' = (build ops).find k' ∧
      mapFind k' ((build ops).add k m).2.data = mapFind k' (build ops).data := by
  have hinv := Inv.build ops
  exact ⟨by rw [find_add hinv, if_neg hne], by rw [mapFind_add hinv, if_neg hne]⟩

/-- Witness of C15: `add("mult", m)` on the table of the test, where `mult` is present,
leaves `sum` at index 0 with its metadata. -/
theorem add_frame_witness :
    "mult" ≠ "sum" ∧
      (((build sumMult).add "mult" otherMeta).2.find "sum" = (build sumMult).find "sum" ∧
        mapFind "sum" ((build sumMult).add "mult" otherMeta).2.data =
          mapFind "sum" (build sumMult).data) ∧
      mapFind "sum" (build sumMult).data = some (0, {}) :=
  ⟨by decide, add_frame sumMult "mult" "sum" otherMeta (by decide), by decide⟩

end VariableTable

/-! ## Errors and termination of `readFromFile` -/

namespace ConstTable

/-- C13: when the file cannot be opened, `readFromFile` throws the `runtime_error`
"Cannot open file ..." and the table is what it was before the call; a fresh table stays
empty. -/
theorem readFromFile_unopenable (fs : String → Option String) (uninit : Nat → Int)
    (fuel : Nat) (t : ConstTable) (filePath : String) (hclosed : fs filePath = none) :
    readFromFile fs uninit fuel t filePath =
        some { thrown := some ("Cannot open file " ++ filePath), table := t } ∧
      readFromFile fs uninit fuel {} filePath =
        some { thrown := some ("Cannot open file " ++ filePath), table := { data := [] } } := by
  simp [readFromFile, hclosed]

/-- Witness of C13: the call `readFromFile("")` of the test, on a table that holds an
entry. -/
theorem readFromFile_unopenable_witness :
    noFile "" = none ∧
      (readFromFile noFile (fun _ => 0) 0 { data := [("int", 0)] } "" =
          some { thrown := some ("Cannot open file " ++ ""),
                 table := { data := [("int", 0)] } } ∧
        readFromFile noFile (fun _ => 0) 0 {} "" =
          some { thrown := some ("Cannot open file " ++ ""), table := { data := [] } }) :=
  ⟨rfl, readFromFile_unopenable noFile (fun _ => 0) 0 { data := [("int", 0)] } "" rfl⟩

end ConstTable

/-! ## Repeated keys, unparseable records and the end of the read loop -/

theorem firstValue_of_mem_some {rs : List Record} {r : Record} (hr : r ∈ rs) :
    ∃ v, firstValue (String.mk r.key) rs = some v := by
  induction rs with
  | nil => simp at hr
  | cons r₁ rs ih =>
    by_cases hk : String.mk r₁.key = String.mk r.key
    · exact ⟨r₁.value, by simp [firstValue, hk]⟩
    · rcases List.mem_cons.mp hr with h | h
      · subst h
        exact absurd rfl hk
      · simpa [firstValue, hk] using ih h

namespace IStream

/-- On a stream that is not `good()` the extraction `file >> num` leaves `num` and sets
`failbit`. -/
theorem readInt_not_good {s : IStream} (h : s.good = false) (num : Int) :
    readInt s num = ({ s with failbit := true }, num) := by
  simp only [readInt, sentry_not_good h]

end IStream

namespace ConstTable

/-- Once `failbit` is set while `eofbit` is not, no extraction changes the flags any more
and the loop condition `!file.eof()` stays true: the loop is still running after any number
of iterations. -/
theorem readLoop_stuck (uninit : Nat → Int) (fuel : Nat) :
    ∀ (i : Nat) (file : IStream) (data : List (String × Int)),
      file.failbit = true → file.eofbit = false → readLoop uninit fuel i file data = none := by
  induction fuel with
  | zero =>
    intro i file data _ heof
    simp [readLoop, heof]
  | succ f ih =>
    intro i file data hfail heof
    obtain ⟨rest, eofbit, failbit⟩ := file
    simp only [] at hfail heof
    subst hfail heof
    have hgood : (⟨rest, false, true⟩ : IStream).good = false := rfl
    have h1 : IStream.readInt ⟨rest, false, true⟩ (uninit i) = (⟨rest, false, true⟩, uninit i) :=
      IStream.readInt_not_good hgood _
    have h2 : IStream.readString ⟨rest, false, true⟩ "" = (⟨rest, false, true⟩, "") :=
      IStream.readString_not_good hgood _
    simp only [readLoop, Bool.false_eq_true, if_false, h1, h2]
    exact ih _ _ _ rfl rfl

/-- The loop only inserts: an entry that is in the map stays in it with its index. -/
theorem readLoop_keeps (uninit : Nat → Int) (k : String) (v : Int) (fuel : Nat) :
    ∀ (i : Nat) (file : IStream) (data data' : List (String × Int)),
      readLoop uninit fuel i file data = some data' → mapFind k data = some v →
        mapFind k data' = some v := by
  induction fuel with
  | zero =>
    intro i file data data' hrun hk
    cases heof : file.eofbit with
    | true =>
      simp only [readLoop, heof, if_true, Option.some.injEq] at hrun
      rw [← hrun]
      exact hk
    | false => simp [readLoop, heof] at hrun
  | succ f ih =>
    intro i file data data' hrun hk
    cases heof : file.eofbit with
    | true =>
      simp only [readLoop, heof, if_true, Option.some.injEq] at hrun
      rw [← hrun]
      exact hk
    | false =>
      simp only [readLoop, heof, Bool.false_eq_true, if_false] at hrun
      apply ih _ _ _ _ hrun
      rw [mapFind_mapInsert]
      split
      · rename_i heq
        rw [heq, hk]
        rfl
      · exact hk

end ConstTable

/-! ## Properties of `readFromFile` on repeated keys and unparseable records -/

namespace ConstTable

/-- C11, counterexample: in the well-formed source `1 a 2 a` the key `a` occurs twice and
its last record has the integer 2; after `readFromFile` the index found for `a` is 1. -/
theorem last_record_does_not_win :
    wellFormedSource repeatedKeyRecords [] = true ∧
      fileWith repeatedKeyText "const_tables/keywords.txt" =
        some (String.mk (sourceText repeatedKeyRecords [])) ∧
      repeatedKeyRecords.map (fun r => (String.mk r.key, r.value)) = [("a", 1), ("a", 2)] ∧
      readFromFile (fileWith repeatedKeyText) (fun _ => 0) 2 {} "const_tables/keywords.txt" =
        some { thrown := none, table := { data := [("a", 1)] } } ∧
      ({ data := [("a", 1)] } : ConstTable).find "a" ≠ 2 := by
  decide

/-- C11, amended: when the file holds a well-formed source, in which a key may occur in more
than one record, `readFromFile` on an empty table returns without an exception and the index
found for the key of a record is the integer of the first record of the source with that
key (`data.insert` keeps the entry that is there). -/
theorem readFromFile_first_record_wins (fs : String → Option String) (uninit : Nat → Int)
    (filePath : String) (rs : List Record) (trail : List Char) (fuel : Nat)
    (hfile : fs filePath = some (String.mk (sourceText rs trail)))
    (hwf : wellFormedSource rs trail = true)
    (hfuel : rs.length + 1 ≤ fuel) :
    ∃ t : ConstTable,
      readFromFile fs uninit fuel {} filePath = some { thrown := none, table := t } ∧
        ∀ r ∈ rs, firstValue (String.mk r.key) rs = some (t.find (String.mk r.key)) := by
  simp only [wellFormedSource, Bool.and_eq_true, List.all_eq_true, Bool.not_eq_true',
    List.isEmpty_eq_false] at hwf
  obtain ⟨⟨hrec, hlead⟩, htrail⟩ := hwf
  obtain ⟨data', hloop, hfind⟩ :=
    readLoop_records uninit trail htrail rs hrec hlead fuel 0 [] hfuel
  refine ⟨{ data := data' }, ?_, ?_⟩
  · simp only [readFromFile, hfile]
    rw [hloop]
  · intro r hr
    obtain ⟨-, -, -, -, ⟨hkne, -⟩, -⟩ := (Record.wellFormed_iff r).mp (hrec r hr)
    have hne : String.mk r.key ≠ "" := fun h => hkne (congrArg String.data h)
    obtain ⟨v, hv⟩ := firstValue_of_mem_some hr
    have hdata : mapFind (String.mk r.key) data' = some v := by
      rw [hfind _ hne, mapFind_insertAll, ← hv]
      rfl
    simp only [find, hdata, hv]

/-- Witness of C11: the source `1 a 2 a`, where `find("a")` is the 1 of the first record. -/
theorem readFromFile_first_record_wins_witness :
    fileWith repeatedKeyText "const_tables/keywords.txt" =
        some (String.mk (sourceText repeatedKeyRecords [])) ∧
      wellFormedSource repeatedKeyRecords [] = true ∧
      repeatedKeyRecords.length + 1 ≤ 3 ∧
      (∃ t : ConstTable,
        readFromFile (fileWith repeatedKeyText) (fun _ => 0) 3 {} "const_tables/keywords.txt" =
            some { thrown := none, table := t } ∧
          ∀ r ∈ repeatedKeyRecords,
            firstValue (String.mk r.key) repeatedKeyRecords =
              some (t.find (String.mk r.key))) ∧
      firstValue "a" repeatedKeyRecords = some 1 :=
  ⟨by decide, by decide, by decide,
    readFromFile_first_record_wins (fileWith repeatedKeyText) (fun _ => 0)
      "const_tables/keywords.txt" repeatedKeyRecords [] 3 (by decide) (by decide) (by decide),
    by decide⟩

/-- C12, counterexample: the second record of the source `1 a`, `-` has a first field that
is no integer; `readFromFile` returns without throwing, and the table holds the record read
before it and an entry with the empty key. -/
theorem readFromFile_unparseable_no_error :
    readFromFile (fileWith brokenEndText) (fun _ => 0) 2 {} "const_tables/keywords.txt" =
      some { thrown := none, table := { data := [("", 0), ("a", 1)] } } := by
  decide

/-- C12, amended: `readFromFile` reports an error exactly when the file cannot be opened; on
a source that can be opened, whatever records it holds, a call that returns has thrown
nothing, and every entry that the table held before the call is still in it with its
index. -/
theorem readFromFile_reports_only_unopenable (fs : String → Option String)
    (uninit : Nat → Int) (fuel : Nat) (t : ConstTable) (filePath : String) (res : ReadResult)
    (hres : readFromFile fs uninit fuel t filePath = some res) :
    (res.thrown = none ↔ fs filePath ≠ none) ∧
      ∀ k v, mapFind k t.data = some v → mapFind k res.table.data = some v := by
  unfold readFromFile at hres
  cases hfs : fs filePath with
  | none =>
    simp only [hfs, Option.some.injEq] at hres
    subst hres
    simp
  | some content =>
    simp only [hfs] at hres
    cases hloop : readLoop uninit fuel 0 { rest := content.data } t.data with
    | none => simp [hloop] at hres
    | some data' =>
      simp only [hloop, Option.some.injEq] at hres
      subst hres
      refine ⟨by simp, ?_⟩
      intro k v hk
      exact readLoop_keeps uninit k v fuel 0 _ _ _ hloop hk

/-- Witness of C12: the source `1 a`, `-` loaded into a table that holds `int`. -/
theorem readFromFile_reports_only_unopenable_witness :
    readFromFile (fileWith brokenEndText) (fun _ => 0) 2 { data := [("int", 0)] }
        "const_tables/keywords.txt" =
        some { thrown := none, table := { data := [("", 0), ("a", 1), ("int", 0)] } } ∧
      ((none : Option String) = none ↔
        fileWith brokenEndText "const_tables/keywords.txt" ≠ none) ∧
      ∀ k v, mapFind k [("int", (0 : Int))] = some v →
        mapFind k [("", (0 : Int)), ("a", 1), ("int", 0)] = some v :=
  ⟨by decide,
    readFromFile_reports_only_unopenable (fileWith brokenEndText) (fun _ => 0) 2
      { data := [("int", 0)] } "const_tables/keywords.txt"
      { thrown := none, table := { data := [("", 0), ("a", 1), ("int", 0)] } } (by decide)⟩

/-- C16, the failing input: the second record of the source `1 a`, `abc def` has a
non-numeric first field. `file >> num` sets `failbit` there and not `eofbit`, and the loop
is still running after any number of iterations: `readFromFile` never returns. -/
theorem readFromFile_never_ends (uninit : Nat → Int) (fuel : Nat) :
    readFromFile (fileWith nonNumericText) uninit fuel {} "const_tables/keywords.txt" =
      none := by
  have hloop : readLoop uninit fuel 0 { rest := nonNumericText.data } [] = none := by
    match fuel with
    | 0 => rfl
    | 1 => rfl
    | f + 2 =>
      have hstep : readLoop uninit (f + 2) 0 { rest := nonNumericText.data } [] =
          readLoop uninit f 2 { rest := "abc def\n".data, eofbit := false, failbit := true }
            [("", 0), ("a", 1)] := rfl
      rw [hstep]
      exact readLoop_stuck uninit f 2 _ _ rfl rfl
  simp only [readFromFile, fileWith]
  rw [hloop]

end ConstTable

end TranslatorLabs
